import Mathlib

/-!
Verification development for the `quoted-string` crate.

The source is a snapshot mixing several revisions of the same design.
`quote.rs` is the closure-based quoting engine working over the static
`QTEXT_INFO` lookup table; `spec.rs`, `unquote.rs`, `parse.rs` and
`iter.rs` form the pluggable-grammar engine.  Across revisions the
per-character `ValidationResult` enum was renamed: the variants
`NotSemantic`/`NeedsQuotedPair` of `spec.rs` correspond to the variants
`NotSemanticWs`/`Escape`-plus-`Quotable` matched by `parse.rs` and
`iter.rs` (with `NeedsQuotedPair` at `'\\'` playing the `Escape` role,
exactly the `if ch == '\\'` sub-case of `unquote.rs`).  The embedding
below uses the six-variant form, which both `parse.rs` and `iter.rs`
match on verbatim.

Strings are embedded as `List Char`.  Byte-level operations of the
source (`strip_quotes`'s first/last byte tests, `parse`'s offsets) are
reproduced faithfully: a UTF-8 first or last byte equals `b'"'` exactly
when the first or last character is `'"'`, and `parse`'s byte offsets
are recomputed with `Char.utf8Size`.  Rust's panics (`unreachable!`,
out-of-order slice ranges) are modelled by explicit `panicked` results.
-/

/-- `char::is_ascii` of Rust: scalar value at most `0x7F`. -/
def is_ascii (ch : Char) : Bool := ch.toNat ≤ 0x7F

/-- `QuotedStringType` of quote.rs. -/
inductive QuotedStringType where
  | Utf8
  | AsciiOnly
deriving DecidableEq, Repr

/-- `QuotedStringType::from_is_ascii` of quote.rs. -/
def QuotedStringType.from_is_ascii (b : Bool) : QuotedStringType :=
  if b then .AsciiOnly else .Utf8

/-- The `Error` enum imported by quote.rs.  Modelled from the spec:
the module `error` holding this enum is absent from src/ (src/src/error.rs
holds the unrelated `CoreError`); the variants follow spec §7
(UnquotableCharacter, NonAsciiRejected) and quote.rs's call sites
`Error::UnquotableCharacter(ch)` and `Error::NonUsAsciiInput`. -/
inductive QError where
  | UnquotableCharacter (ch : Char)
  | NonUsAsciiInput
deriving DecidableEq, Repr

/-- The `QTEXT_INFO` lookup table of quote.rs for chars < 0x80:
`0` unquotable, `1` needs quoting, `2` normal, `3` whitespace. -/
def QTEXT_INFO : List Nat := [
  0, 0, 0, 0, 0, 0, 0, 0, 0, 3, 0, 0, 0, 0, 0, 0,
  0, 0, 0, 0, 0, 0, 0, 0, 0, 0, 0, 0, 0, 0, 0, 0,
  3, 2, 1, 2, 2, 2, 2, 2, 2, 2, 2, 2, 2, 2, 2, 2,
  2, 2, 2, 2, 2, 2, 2, 2, 2, 2, 2, 2, 2, 2, 2, 2,
  2, 2, 2, 2, 2, 2, 2, 2, 2, 2, 2, 2, 2, 2, 2, 2,
  2, 2, 2, 2, 2, 2, 2, 2, 2, 2, 2, 2, 1, 2, 2, 2,
  2, 2, 2, 2, 2, 2, 2, 2, 2, 2, 2, 2, 2, 2, 2, 2,
  2, 2, 2, 2, 2, 2, 2, 2, 2, 2, 2, 2, 2, 2, 2, 0]

/-- Table lookup `QTEXT_INFO[ch as usize]`; quote.rs only indexes it for
ASCII characters, so the default never fires there. -/
def qtextInfoAt (ch : Char) : Nat := QTEXT_INFO.getD ch.toNat 0

/-- Rust's `Cow<str>` restricted to what the engine produces:
a borrowed view or a fresh owned buffer. -/
inductive CowStr where
  | borrowed (s : List Char)
  | owned (s : List Char)
deriving DecidableEq, Repr

/-- Underlying text of a `Cow<str>` (what `&*cow` dereferences to). -/
def CowStr.text : CowStr → List Char
  | .borrowed s => s
  | .owned s => s

/-- Outcome of running a fallible Rust function that may also panic. -/
inductive RunResult (E α : Type) where
  | panicked
  | failed (e : E)
  | done (a : α)
deriving DecidableEq, Repr

/-- Extracts the success value of a `RunResult`, if any. -/
def RunResult.value? {E α : Type} : RunResult E α → Option α
  | .done a => some a
  | _ => none

/-- The `ValidWithoutQuotationCheck` trait of quote.rs as explicit state:
`next_char` consumes one character, `end_check` is the trait's `end`
method (named `end` in the source, a Lean keyword). -/
structure QCheck (σ : Type) where
  init : σ
  next_char : σ → Char → σ × Bool
  end_check : σ → List Char → Bool

/-- The blanket `ValidWithoutQuotationCheck for T: FnMut(char) -> bool`
impl of quote.rs: the closure decides `next_char` and `end` keeps its
default, returning `true`. -/
def closure_check (f : Char → Bool) : QCheck Unit where
  init := ()
  next_char := fun _ ch => ((), f ch)
  end_check := fun _ _ => true

/-- `scan_ahead` of quote.rs: walks the input, failing on a non-ASCII
character in `AsciiOnly` mode, and stopping with the offset of the first
character the `valid_without_quoting` check rejects (the full length if
none is rejected).  Offsets are character counts; the source's
`char_indices` byte offsets sit at the same split points. -/
def scan_ahead {σ : Type} (next_char : σ → Char → σ × Bool) (ascii_only : Bool) :
    σ → Bool → List Char → Except QError (σ × Bool × Nat)
  | s, ascii, [] => .ok (s, ascii, 0)
  | s, ascii, ch :: rest =>
    if ascii && !is_ascii ch then
      if ascii_only then
        .error .NonUsAsciiInput
      else
        let (s', keep) := next_char s ch
        if keep then
          (scan_ahead next_char ascii_only s' false rest).map
            (fun r => (r.1, r.2.1, r.2.2 + 1))
        else .ok (s', false, 0)
    else
      let (s', keep) := next_char s ch
      if keep then
        (scan_ahead next_char ascii_only s' ascii rest).map
          (fun r => (r.1, r.2.1, r.2.2 + 1))
      else .ok (s', ascii, 0)

/-- The character loop of `_quote` in quote.rs: escapes or rejects each
remaining character per `QTEXT_INFO`, tracking whether everything seen
is ASCII. -/
def quote_loop (ascii_only : Bool) : Bool → List Char → Except QError (Bool × List Char)
  | ascii, [] => .ok (ascii, [])
  | ascii, ch :: rest =>
    if is_ascii ch then
      let res := qtextInfoAt ch
      if res = 0 then
        .error (.UnquotableCharacter ch)
      else
        (quote_loop ascii_only ascii rest).map
          (fun r => (r.1, (if res = 1 then ['\\', ch] else [ch]) ++ r.2))
    else
      if ascii_only then
        .error .NonUsAsciiInput
      else
        (quote_loop ascii_only false rest).map (fun r => (r.1, ch :: r.2))

/-- `_quote` of quote.rs: copy the already-checked prefix verbatim after
an opening `'"'`, escape the rest, close with `'"'`. -/
def i_quote (input : List Char) (was_ascii : Bool) (quoted_string_type : QuotedStringType)
    (start_escape_check_from : Nat) : Except QError (Bool × List Char) :=
  let ascii_only := quoted_string_type = QuotedStringType.AsciiOnly
  let okPart := input.take start_escape_check_from
  let rest := input.drop start_escape_check_from
  (quote_loop ascii_only was_ascii rest).map
    (fun r => (r.1, '"' :: okPart ++ r.2 ++ ['"']))

/-- `quote_if_needed` of quote.rs: return the input borrowed when the
whole scan and the end check pass, else quote it. -/
def quote_if_needed {σ : Type} (chk : QCheck σ) (quoted_string_type : QuotedStringType)
    (input : List Char) : Except QError (QuotedStringType × CowStr) :=
  match scan_ahead chk.next_char (quoted_string_type = QuotedStringType.AsciiOnly)
      chk.init true input with
  | .error e => .error e
  | .ok (s, ascii, offset) =>
    if offset = input.length ∧ chk.end_check s input then
      .ok (QuotedStringType.from_is_ascii ascii, .borrowed input)
    else
      match i_quote input ascii quoted_string_type offset with
      | .error e => .error e
      | .ok (ascii2, out) =>
        .ok (QuotedStringType.from_is_ascii ascii2, .owned out)

/-- `quote` of quote.rs: `quote_if_needed(input, |_| false, Utf8)`,
then an `unreachable!` panic on the borrowed arm of the `Cow`. -/
def quote (input : List Char) : RunResult QError (QuotedStringType × List Char) :=
  match quote_if_needed (closure_check (fun _ => false)) QuotedStringType.Utf8 input with
  | .error e => .failed e
  | .ok (mt, .owned out) => .done (mt, out)
  | .ok (_, .borrowed _) => .panicked

/-! ### The pluggable-grammar engine: spec.rs, utils.rs, unquote.rs, iter.rs, parse.rs -/

/-- The per-character `ValidationResult` of the grammar interface, in the
six-variant form matched by parse.rs and iter.rs (spec.rs's revision
names `notSemanticWs` `NotSemantic` and folds `escape`/`quotable` into
`NeedsQuotedPair`, distinguished at the consumer by `ch == '\\'`). -/
inductive ValidationResult (E : Type) where
  | QText
  | SemanticWs
  | NotSemanticWs
  | Escape
  | Quotable
  | Invalid (err : E)
deriving DecidableEq, Repr

/-- The `QuotedStringSpec` trait together with its `QuotedValidator`:
a fresh validator state, the stateful per-character classifier, and the
grammar's error constructors (spec.rs). -/
structure QSpec (σ E : Type) where
  new_quoted_validator : σ
  validate_next_char : σ → Char → σ × ValidationResult E
  unquoted_quotable_char : Char → E
  error_for_tailing_escape : Except E Unit
  quoted_string_missing_quotes : E

/-- The default `validate_is_quotable` of the `QuotedValidator` trait:
run `validate_next_char` and accept anything that is not `Invalid`. -/
def QSpec.validate_is_quotable {σ E : Type} (sp : QSpec σ E) (s : σ) (ch : Char) :
    σ × Except E Unit :=
  match sp.validate_next_char s ch with
  | (s', .Invalid err) => (s', .error err)
  | (s', _) => (s', .ok ())

/-- Outcome of `strip_quotes` in utils.rs, with the panic of the slice
`&quoted_string[1..len-1]` made explicit (it fires when both byte tests
pass but `1 > len - 1`, i.e. on the one-byte input `"`). -/
inductive StripResult where
  | panicked
  | noQuotes
  | stripped (content : List Char)
deriving DecidableEq, Repr

/-- `strip_quotes` of utils.rs.  The source tests the first and last
byte against `b'"'`; a UTF-8 first or last byte equals `0x22` exactly
when the first or last character is `'"'`, so the character-level test
is equivalent. -/
def strip_quotes (quoted_string : List Char) : StripResult :=
  if quoted_string.head? = some '"' ∧ quoted_string.getLast? = some '"' then
    if quoted_string.length < 2 then .panicked
    else .stripped (quoted_string.drop 1).dropLast
  else .noQuotes

/-- `LastWas` of unquote.rs. -/
inductive LastWas where
  | Escape
  | NotSemanticWs
deriving DecidableEq, Repr

/-- `ScanResult` of unquote.rs, additionally carrying the validator
state that the source keeps threading through `q_validator` by mutable
reference. -/
inductive ScanResult (σ : Type) where
  | validUnchanged (q : σ)
  | validUpTo (split_idx : Nat) (last_was : LastWas) (last_ch : Char) (q : σ)

/-- `scan_unchanged` of unquote.rs: find the first character needing a
transformation (`split_idx` counts characters; the source's byte index
sits at the same split point). -/
def scan_unchanged {σ E : Type} (sp : QSpec σ E) :
    σ → Nat → List Char → Except E (ScanResult σ)
  | q, _, [] => .ok (.validUnchanged q)
  | q, idx, ch :: rest =>
    match sp.validate_next_char q ch with
    | (q', .QText) => scan_unchanged sp q' (idx + 1) rest
    | (q', .SemanticWs) => scan_unchanged sp q' (idx + 1) rest
    | (q', .Escape) => .ok (.validUpTo idx .Escape ch q')
    | (_, .Quotable) => .error (sp.unquoted_quotable_char ch)
    | (q', .NotSemanticWs) => .ok (.validUpTo idx .NotSemanticWs ch q')
    | (_, .Invalid err) => .error err

/-- The item sequence produced by the `ContentChars` iterator of
iter.rs over a partial quoted-string interior: each `next()` call skips
non-semantic whitespace, yields plain characters, yields the raw
character following an escape (without feeding it to the validator), and
yields errors for quotable-without-escape or invalid characters; a
trailing escape yields the grammar's trailing-escape policy mapped to a
literal backslash. -/
def content_chars_items {σ E : Type} (sp : QSpec σ E) : σ → List Char → List (Except E Char)
  | _, [] => []
  | q, ch :: rest =>
    match sp.validate_next_char q ch with
    | (q', .QText) => .ok ch :: content_chars_items sp q' rest
    | (q', .SemanticWs) => .ok ch :: content_chars_items sp q' rest
    | (q', .Escape) =>
      match rest with
      | ch2 :: rest2 => .ok ch2 :: content_chars_items sp q' rest2
      | [] => [sp.error_for_tailing_escape.map (fun _ => '\\')]
    | (q', .Quotable) => .error (sp.unquoted_quotable_char ch) :: content_chars_items sp q' rest
    | (q', .NotSemanticWs) => content_chars_items sp q' rest
    | (q', .Invalid err) => .error err :: content_chars_items sp q' rest

/-- The consuming loop of to_content: `for ch in iter { buffer.push(ch?) }`,
stopping at the first decode error. -/
def push_all {E : Type} : List Char → List (Except E Char) → Except E (List Char)
  | buffer, [] => .ok buffer
  | buffer, .ok ch :: items => push_all (buffer ++ [ch]) items
  | _, .error e :: _ => .error e

/-- `to_content` of unquote.rs: strip the quotes, scan for the first
split point, resolve the transitional character, then decode the rest
through `ContentChars`. -/
def to_content {σ E : Type} (sp : QSpec σ E) (quoted_string : List Char) :
    RunResult E CowStr :=
  match strip_quotes quoted_string with
  | .panicked => .panicked
  | .noQuotes => .failed sp.quoted_string_missing_quotes
  | .stripped content =>
    match scan_unchanged sp sp.new_quoted_validator 0 content with
    | .error e => .failed e
    | .ok (.validUnchanged _) => .done (.borrowed content)
    | .ok (.validUpTo split_idx last_was _ q') =>
      let unquoted := content.take split_idx
      let tail := content.drop split_idx
      match last_was with
      | .Escape =>
        match (tail.drop 1).head? with
        | some ch =>
          match push_all (unquoted ++ [ch]) (content_chars_items sp q' (tail.drop 2)) with
          | .error e => .failed e
          | .ok buffer => .done (.owned buffer)
        | none =>
          match sp.error_for_tailing_escape with
          | .error e => .failed e
          | .ok _ =>
            match push_all (unquoted ++ ['\\']) (content_chars_items sp q' (tail.drop 1)) with
            | .error e => .failed e
            | .ok buffer => .done (.owned buffer)
      | .NotSemanticWs =>
        match push_all unquoted (content_chars_items sp q' (tail.drop 1)) with
        | .error e => .failed e
        | .ok buffer => .done (.owned buffer)

/-- UTF-8 byte length of an embedded string (`str::len` of Rust). -/
def byteLen (s : List Char) : Nat := (s.map Char.utf8Size).sum

/-- `Parsed` of parse.rs: the parsed quoted string and the unconsumed
tail (both are slices of the input around one split point). -/
structure Parsed where
  quoted_string : List Char
  tail : List Char
deriving DecidableEq, Repr

/-- The character loop of `parse` in parse.rs, over the input after the
opening `'"'`.  `pos` counts consumed characters of the whole input,
`idx` is the byte offset of the current character (the source's
`char_indices` index). -/
def parse_loop {σ E : Type} (sp : QSpec σ E) (input : List Char) :
    σ → Bool → Nat → Nat → List Char → Except (Nat × E) Parsed
  | _, _, _, _, [] => .error (byteLen input, sp.quoted_string_missing_quotes)
  | q, last_was_escape, pos, idx, ch :: rest =>
    if last_was_escape then
      match sp.validate_is_quotable q ch with
      | (_, .error err) => .error (idx, err)
      | (q', .ok _) => parse_loop sp input q' false (pos + 1) (idx + ch.utf8Size) rest
    else if ch = '"' then
      .ok { quoted_string := input.take (pos + 1), tail := input.drop (pos + 1) }
    else
      match sp.validate_next_char q ch with
      | (q', .QText) => parse_loop sp input q' false (pos + 1) (idx + ch.utf8Size) rest
      | (q', .SemanticWs) => parse_loop sp input q' false (pos + 1) (idx + ch.utf8Size) rest
      | (q', .NotSemanticWs) => parse_loop sp input q' false (pos + 1) (idx + ch.utf8Size) rest
      | (q', .Escape) => parse_loop sp input q' true (pos + 1) (idx + ch.utf8Size) rest
      | (_, .Quotable) => .error (idx, sp.unquoted_quotable_char ch)
      | (_, .Invalid err) => .error (idx, err)

/-- `parse` of parse.rs: require an opening `'"'` (error at offset 0
otherwise, also on empty input), then run the character loop from byte
offset 1. -/
def parse {σ E : Type} (sp : QSpec σ E) (input : List Char) : Except (Nat × E) Parsed :=
  if input.head? = some '"' then
    parse_loop sp input sp.new_quoted_validator false 1 1 input.tail
  else
    .error (0, sp.quoted_string_missing_quotes)

/-- Mirrors the control flow of `parse`'s character loop: `true` exactly
when the loop runs off the end of the input without an early return
(no unescaped closing quote, no validation error). -/
def loop_exhausts {σ E : Type} (sp : QSpec σ E) : σ → Bool → List Char → Bool
  | _, _, [] => true
  | q, last_was_escape, ch :: rest =>
    if last_was_escape then
      match sp.validate_is_quotable q ch with
      | (_, .error _) => false
      | (q', .ok _) => loop_exhausts sp q' false rest
    else if ch = '"' then false
    else
      match sp.validate_next_char q ch with
      | (q', .QText) => loop_exhausts sp q' false rest
      | (q', .SemanticWs) => loop_exhausts sp q' false rest
      | (q', .NotSemanticWs) => loop_exhausts sp q' false rest
      | (q', .Escape) => loop_exhausts sp q' true rest
      | (_, .Quotable) => false
      | (_, .Invalid _) => false

/-! ### Concrete grammars and helper notions -/

/-- `TestError` of test_utils.rs. -/
inductive TestError where
  | Unquoteable
  | QuotesMissing
  | EscapeMissing
  | TailingEscape
deriving DecidableEq, Repr

/-- The per-character classifier of `TestQuotedValidator` in
test_utils.rs: `'\\'` opens a quoted pair (the `Escape` role of the
quotable class), `'"'` and NUL are quotable-but-need-escape, printable
US-ASCII is qtext, space and tab are semantic whitespace, `'\n'` is
non-semantic, everything else is invalid. -/
def test_validate_next_char (ch : Char) : ValidationResult TestError :=
  if ch = '\\' then .Escape
  else if ch = '"' ∨ ch = '\u0000' then .Quotable
  else if '!' ≤ ch ∧ ch ≤ '~' then .QText
  else if ch = ' ' ∨ ch = '\t' then .SemanticWs
  else if ch = '\n' then .NotSemanticWs
  else .Invalid .Unquoteable

/-- `TestSpec` of test_utils.rs (its validators are zero-sized). -/
def TestSpec : QSpec Unit TestError where
  new_quoted_validator := ()
  validate_next_char := fun _ ch => ((), test_validate_next_char ch)
  unquoted_quotable_char := fun _ => .EscapeMissing
  error_for_tailing_escape := .error .TailingEscape
  quoted_string_missing_quotes := .QuotesMissing

/-- A `TestSpec` twin whose trailing-escape policy accepts the trailing
backslash as a literal backslash — the other grammar-level policy choice
the spec leaves open. -/
def TestSpecLax : QSpec Unit TestError where
  new_quoted_validator := ()
  validate_next_char := fun _ ch => ((), test_validate_next_char ch)
  unquoted_quotable_char := fun _ => .EscapeMissing
  error_for_tailing_escape := .ok ()
  quoted_string_missing_quotes := .QuotesMissing

/-- The classification `quote` itself implements, read off `QTEXT_INFO`
and the non-ASCII branch of `_quote` (any non-ASCII char is valid
qtext), rendered as a `QuotedValidator` classifier: table value 1 at
`'\\'` is the escape marker, at `'"'` the quotable class. -/
def qtext_info_validator (ch : Char) : ValidationResult QError :=
  if is_ascii ch then
    if qtextInfoAt ch = 0 then .Invalid (.UnquotableCharacter ch)
    else if qtextInfoAt ch = 1 then
      (if ch = '\\' then .Escape else .Quotable)
    else if qtextInfoAt ch = 3 then .SemanticWs
    else .QText
  else .QText

/-- The grammar under which `quote` operates, as a `QSpec`; the error
constructors other than the validator's own are unreachable on `quote`
outputs, so they are left as an arbitrary `misc` value. -/
def quote_grammar (misc : QError) : QSpec Unit QError where
  new_quoted_validator := ()
  validate_next_char := fun _ ch => ((), qtext_info_validator ch)
  unquoted_quotable_char := fun _ => misc
  error_for_tailing_escape := .error misc
  quoted_string_missing_quotes := misc

/-- Whether `quote` accepts a character: non-ASCII characters and every
ASCII character whose `QTEXT_INFO` class is not unquotable. -/
def quote_accepts (ch : Char) : Bool := !is_ascii ch || qtextInfoAt ch != 0

/-- Whether `quote` escapes a character (table class 1: `'\\'`, `'"'`). -/
def needs_escape (ch : Char) : Bool := is_ascii ch && qtextInfoAt ch = 1

/-- One character as `quote` emits it into the output. -/
def esc_char (ch : Char) : List Char :=
  if needs_escape ch then ['\\', ch] else [ch]

/-- The escaped interior `quote` builds for a content string. -/
def esc_all (s : List Char) : List Char := s.flatMap esc_char

/-- Splits a string at its first character needing an escape:
the all-plain prefix, that character, and the remainder. -/
def first_escaped : List Char → Option (List Char × Char × List Char)
  | [] => none
  | ch :: rest =>
    if needs_escape ch then some ([], ch, rest)
    else
      match first_escaped rest with
      | none => none
      | some (a, c, b) => some (ch :: a, c, b)

/-- Runs a `ValidWithoutQuotationCheck` over a whole string: final check
state together with whether every character was accepted. -/
def check_all {σ : Type} (next_char : σ → Char → σ × Bool) : σ → List Char → σ × Bool
  | s, [] => (s, true)
  | s, ch :: rest =>
    let (s', keep) := next_char s ch
    if keep then check_all next_char s' rest else (s', false)

/-! ### The scan automaton (spec §4.3) and its errors (error.rs) -/

/-- `CoreError` of error.rs. -/
inductive CoreError where
  | AdvancedFailedAutomaton
  | QuotedStringAlreadyEnded
  | UnquoteableCharQuoted
  | DoesNotStartWithDQuotes
  | DoesNotEndWithDQuotes
  | InvalidChar
deriving DecidableEq, Repr

/-- `AutomatonState` with a grammar-defined `Custom` substate.  The
terminal state `End` is rendered `Ended` (`end` is a Lean keyword). -/
inductive AutomatonState (S : Type) where
  | Start
  | Normal
  | EscapeStarted
  | Custom (sub : S)
  | Ended
  | Failed
deriving DecidableEq, Repr

/-- Grammar-defined pieces of the scan automaton: handling of an
ordinary character in the `Normal` state, the `Custom` substate
transition, and which characters are escapable in a quoted pair. -/
structure AutomatonGrammar (S : Type) where
  normal_step : Char → Except CoreError (AutomatonState S)
  custom_step : S → Char → Except CoreError (AutomatonState S)
  escapable : Char → Bool

/-- Modelled from the spec: the scan automaton of §4.3 is not present
under src/ — only its error variants survive in error.rs — so its
transition function is reconstructed from the spec's transition list.
`Ended` and `Failed` are absorbing: any further character yields the
"advanced after completion" respectively "advanced after failure"
error of error.rs, never a panic and never a silent accept. -/
def automaton_advance {S : Type} (g : AutomatonGrammar S) :
    AutomatonState S → Char → Except CoreError (AutomatonState S)
  | .Start, ch => if ch = '"' then .ok .Normal else .error .DoesNotStartWithDQuotes
  | .Normal, ch =>
    if ch = '"' then .ok .Ended
    else if ch = '\\' then .ok .EscapeStarted
    else g.normal_step ch
  | .EscapeStarted, ch =>
    if g.escapable ch then .ok .Normal else .error .UnquoteableCharQuoted
  | .Custom sub, ch => g.custom_step sub ch
  | .Ended, _ => .error .QuotedStringAlreadyEnded
  | .Failed, _ => .error .AdvancedFailedAutomaton

/-! ### ContentChars comparisons (iter.rs) -/

/-- `iter_eq` of iter.rs: pairwise comparison of two fallible character
sequences, true only when both end together and every pair is a pair of
successfully decoded characters accepted by `cmp`. -/
def iter_eq {E : Type} (cmp : Char → Char → Bool) :
    List (Except E Char) → List (Except E Char) → Bool
  | [], [] => true
  | .ok x :: l, .ok y :: r => if cmp x y then iter_eq cmp l r else false
  | _, _ => false

/-- The `ContentChars` iterator state of iter.rs: the remaining raw
interior characters and the validator state. -/
structure ContentChars (σ : Type) where
  q_validator : σ
  inner : List Char

/-- The full item sequence a `ContentChars` iterator yields. -/
def ContentChars.items {σ E : Type} (sp : QSpec σ E) (cc : ContentChars σ) :
    List (Except E Char) :=
  content_chars_items sp cc.q_validator cc.inner

/-- `PartialEq<ContentChars> for ContentChars` of iter.rs. -/
def content_chars_eq {σ E : Type} [DecidableEq E] (sp : QSpec σ E)
    (a b : ContentChars σ) : Bool :=
  iter_eq (fun l r => l = r) (a.items sp) (b.items sp)

/-- `PartialEq<str> for ContentChars` of iter.rs (the str side never
yields a decode error). -/
def content_chars_eq_str {σ E : Type} [DecidableEq E] (sp : QSpec σ E)
    (a : ContentChars σ) (other : List Char) : Bool :=
  iter_eq (fun l r => l = r) (a.items sp) (other.map Except.ok)

/-- `char::to_ascii_lowercase` of Rust. -/
def ascii_lower (ch : Char) : Char :=
  if 'A' ≤ ch ∧ ch ≤ 'Z' then Char.ofNat (ch.toNat + 32) else ch

/-- `AsciiCaseInsensitiveEq<ContentChars> for ContentChars` of iter.rs. -/
def content_chars_eq_icase {σ E : Type} [DecidableEq E] (sp : QSpec σ E)
    (a b : ContentChars σ) : Bool :=
  iter_eq (fun l r => ascii_lower l = ascii_lower r) (a.items sp) (b.items sp)

/-- `AsciiCaseInsensitiveEq<str> for ContentChars` of iter.rs. -/
def content_chars_eq_str_icase {σ E : Type} [DecidableEq E] (sp : QSpec σ E)
    (a : ContentChars σ) (other : List Char) : Bool :=
  iter_eq (fun l r => ascii_lower l = ascii_lower r) (a.items sp) (other.map Except.ok)

/-! ### Helper lemmas -/

theorem strip_quotes_wrap (xs : List Char) :
    strip_quotes ('"' :: xs ++ ['"']) = .stripped xs := by
  have hlast : ('"' :: xs ++ ['"']).getLast? = some '"' := by
    rw [show ('"' :: xs ++ ['"']) = ('"' :: xs) ++ ['"'] from by simp]
    exact List.getLast?_concat _
  have hlen : ¬ ('"' :: xs ++ ['"']).length < 2 := by
    simp only [List.length_cons, List.length_append, List.length_singleton]
    omega
  rw [strip_quotes, if_pos ⟨rfl, hlast⟩, if_neg hlen]
  have hdrop : ('"' :: xs ++ ['"']).drop 1 = xs ++ ['"'] := rfl
  rw [hdrop, List.dropLast_concat]

theorem esc_all_nil : esc_all [] = [] := rfl

theorem esc_all_cons (ch : Char) (s : List Char) :
    esc_all (ch :: s) = esc_char ch ++ esc_all s := by
  simp [esc_all]

theorem esc_char_plain {ch : Char} (h : needs_escape ch = false) :
    esc_char ch = [ch] := by
  simp [esc_char, h]

theorem esc_all_of_plain {s : List Char} (h : ∀ x ∈ s, needs_escape x = false) :
    esc_all s = s := by
  induction s with
  | nil => rfl
  | cons ch rest ih =>
    rw [esc_all_cons, esc_char_plain (h ch (by simp)), ih (fun x hx => h x (by simp [hx]))]
    rfl

theorem first_escaped_none {s : List Char} (h : first_escaped s = none) :
    ∀ x ∈ s, needs_escape x = false := by
  induction s with
  | nil => simp
  | cons ch rest ih =>
    intro x hx
    rw [first_escaped] at h
    cases hch : needs_escape ch with
    | true => rw [hch] at h; simp at h
    | false =>
      rw [hch] at h
      simp only [Bool.false_eq_true, if_false] at h
      cases hfe : first_escaped rest with
      | none =>
        rcases List.mem_cons.mp hx with hx | hx
        · subst hx; exact hch
        · exact ih hfe x hx
      | some trip =>
        rw [hfe] at h
        obtain ⟨a, c, b⟩ := trip
        simp at h

theorem first_escaped_some {s a : List Char} {c : Char} {b : List Char}
    (h : first_escaped s = some (a, c, b)) :
    s = a ++ c :: b ∧ (∀ x ∈ a, needs_escape x = false) ∧ needs_escape c = true := by
  induction s generalizing a with
  | nil => simp [first_escaped] at h
  | cons ch rest ih =>
    rw [first_escaped] at h
    cases hch : needs_escape ch with
    | true =>
      rw [hch] at h
      simp only [if_true] at h
      obtain ⟨ha, hc, hb⟩ := Prod.mk.injEq .. ▸ Option.some.inj h
      subst ha
      exact ⟨rfl, by simp, hch⟩
    | false =>
      rw [hch] at h
      simp only [Bool.false_eq_true, if_false] at h
      cases hfe : first_escaped rest with
      | none => rw [hfe] at h; simp at h
      | some trip =>
        obtain ⟨a0, c0, b0⟩ := trip
        rw [hfe] at h
        obtain ⟨ha, hc, hb⟩ := Prod.mk.injEq .. ▸ Option.some.inj h
        obtain ⟨hrest, hplain, hcesc⟩ := ih hfe
        refine ⟨?_, ?_, hcesc⟩
        · rw [← ha, hrest, List.cons_append]
        · intro x hx
          rw [← ha] at hx
          rcases List.mem_cons.mp hx with hx | hx
          · subst hx; exact hch
          · exact hplain x hx

theorem backslash_class : qtext_info_validator '\\' = .Escape := by decide

theorem classify_plain {ch : Char} (hacc : quote_accepts ch = true)
    (hne : needs_escape ch = false) :
    qtext_info_validator ch = .QText ∨ qtext_info_validator ch = .SemanticWs := by
  rw [qtext_info_validator]
  cases ha : is_ascii ch with
  | false => simp [ha]
  | true =>
    have h0 : qtextInfoAt ch ≠ 0 := by
      rw [quote_accepts, ha] at hacc
      simpa using hacc
    have h1 : qtextInfoAt ch ≠ 1 := by
      intro hq
      rw [needs_escape, ha, hq] at hne
      simp at hne
    simp only [ha, if_true, h0, if_false, h1]
    by_cases h3 : qtextInfoAt ch = 3 <;> simp [h3]

theorem classify_escape {ch : Char} (hne : needs_escape ch = true) :
    qtext_info_validator ch = .Escape ∨ qtext_info_validator ch = .Quotable := by
  rw [needs_escape, Bool.and_eq_true] at hne
  obtain ⟨ha, h1⟩ := hne
  rw [qtext_info_validator]
  have h1' : qtextInfoAt ch = 1 := by simpa using h1
  simp only [ha, if_true, h1', if_false]
  by_cases hbs : ch = '\\' <;> simp [hbs]

theorem quote_grammar_is_quotable {misc : QError} {ch : Char}
    (hne : needs_escape ch = true) :
    (quote_grammar misc).validate_is_quotable () ch = ((), .ok ()) := by
  rw [QSpec.validate_is_quotable]
  rcases classify_escape hne with h | h <;>
    simp [quote_grammar, h]

theorem quote_loop_ok_shape {ao : Bool} :
    ∀ {s : List Char} {ascii : Bool} {r : Bool × List Char},
    quote_loop ao ascii s = .ok r → r.2 = esc_all s := by
  intro s
  induction s with
  | nil =>
    intro ascii r h
    rw [quote_loop] at h
    cases h
    rfl
  | cons ch rest ih =>
    intro ascii r h
    rw [quote_loop] at h
    cases ha : is_ascii ch with
    | true =>
      rw [ha] at h
      simp only [if_true] at h
      by_cases h0 : qtextInfoAt ch = 0
      · simp [h0] at h
      · simp only [h0, if_false] at h
        cases hrec : quote_loop ao ascii rest with
        | error e => rw [hrec] at h; simp [Except.map] at h
        | ok r0 =>
          rw [hrec] at h
          simp only [Except.map, Except.ok.injEq] at h
          rw [← h]
          simp only [esc_all_cons, ih hrec]
          rw [esc_char, needs_escape, ha]
          by_cases h1 : qtextInfoAt ch = 1 <;> simp [h1]
    | false =>
      rw [ha] at h
      simp only [Bool.false_eq_true, if_false] at h
      cases hao : ao with
      | true => rw [hao] at h; simp at h
      | false =>
        subst hao
        simp only [Bool.false_eq_true, if_false] at h
        cases hrec : quote_loop false false rest with
        | error e => rw [hrec] at h; simp [Except.map] at h
        | ok r0 =>
          rw [hrec] at h
          simp only [Except.map, Except.ok.injEq] at h
          rw [← h]
          simp only [esc_all_cons, ih hrec]
          rw [esc_char, needs_escape, ha]
          simp

theorem quote_loop_ok_accepts {ao : Bool} :
    ∀ {s : List Char} {ascii : Bool} {r : Bool × List Char},
    quote_loop ao ascii s = .ok r → ∀ ch ∈ s, quote_accepts ch = true := by
  intro s
  induction s with
  | nil => intro _ _ _ ch hch; simp at hch
  | cons ch0 rest ih =>
    intro ascii r h ch hch
    rw [quote_loop] at h
    cases ha : is_ascii ch0 with
    | true =>
      rw [ha] at h
      simp only [if_true] at h
      by_cases h0 : qtextInfoAt ch0 = 0
      · simp [h0] at h
      · simp only [h0, if_false] at h
        cases hrec : quote_loop ao ascii rest with
        | error e => rw [hrec] at h; simp [Except.map] at h
        | ok r0 =>
          rcases List.mem_cons.mp hch with hx | hx
          · subst hx; rw [quote_accepts, ha]; simpa using h0
          · exact ih hrec ch hx
    | false =>
      rw [ha] at h
      simp only [Bool.false_eq_true, if_false] at h
      cases hao : ao with
      | true => rw [hao] at h; simp at h
      | false =>
        subst hao
        simp only [Bool.false_eq_true, if_false] at h
        cases hrec : quote_loop false false rest with
        | error e => rw [hrec] at h; simp [Except.map] at h
        | ok r0 =>
          rcases List.mem_cons.mp hch with hx | hx
          · subst hx; rw [quote_accepts, ha]; simp
          · exact ih hrec ch hx

theorem quote_loop_of_accepts {s : List Char} (hacc : ∀ ch ∈ s, quote_accepts ch = true) :
    ∀ ascii : Bool, ∃ a2 : Bool, quote_loop false ascii s = .ok (a2, esc_all s) := by
  induction s with
  | nil => intro ascii; exact ⟨ascii, rfl⟩
  | cons ch rest ih =>
    intro ascii
    have hrest : ∀ x ∈ rest, quote_accepts x = true := fun x hx => hacc x (by simp [hx])
    rw [quote_loop]
    cases ha : is_ascii ch with
    | true =>
      have h0 : qtextInfoAt ch ≠ 0 := by
        have := hacc ch (by simp)
        rw [quote_accepts, ha] at this
        simpa using this
      obtain ⟨a2, hrec⟩ := ih hrest ascii
      refine ⟨a2, ?_⟩
      simp only [if_true, h0, if_false, hrec, Except.map, Except.ok.injEq]
      rw [esc_all_cons, esc_char, needs_escape, ha]
      by_cases h1 : qtextInfoAt ch = 1 <;> simp [h1]
    | false =>
      obtain ⟨a2, hrec⟩ := ih hrest false
      refine ⟨a2, ?_⟩
      simp only [Bool.false_eq_true, if_false, hrec, Except.map, Except.ok.injEq]
      rw [esc_all_cons, esc_char, needs_escape, ha]
      simp

theorem scan_reject_nil :
    scan_ahead (closure_check (fun _ => false)).next_char false () true [] =
      .ok ((), true, 0) := rfl

theorem scan_reject_cons (ch : Char) (rest : List Char) (ascii : Bool) :
    scan_ahead (closure_check (fun _ => false)).next_char false () ascii (ch :: rest) =
      .ok ((), ascii && is_ascii ch, 0) := by
  rw [scan_ahead]
  cases ha : is_ascii ch with
  | true => simp [closure_check, ha]
  | false =>
    cases hascii : ascii with
    | true => simp [closure_check, ha]
    | false => simp [closure_check, ha]

theorem quote_done_shape {s : List Char} {tp : QuotedStringType} {out : List Char}
    (h : quote s = .done (tp, out)) :
    s ≠ [] ∧ (∀ ch ∈ s, quote_accepts ch = true) ∧ out = '"' :: esc_all s ++ ['"'] := by
  rw [quote, quote_if_needed] at h
  cases s with
  | nil =>
    rw [show (decide (QuotedStringType.Utf8 = QuotedStringType.AsciiOnly)) = false from rfl,
      scan_reject_nil] at h
    simp [closure_check] at h
  | cons ch0 rest =>
    rw [show (decide (QuotedStringType.Utf8 = QuotedStringType.AsciiOnly)) = false from rfl,
      scan_reject_cons] at h
    have hcond : ¬ ((0 : Nat) = (ch0 :: rest).length ∧
        (closure_check (fun _ => false)).end_check () (ch0 :: rest) = true) := by
      intro hcon
      simpa using hcon.1
    dsimp only [] at h
    rw [if_neg hcond, i_quote] at h
    simp only [List.take_zero, List.drop_zero] at h
    rw [show (decide (QuotedStringType.Utf8 = QuotedStringType.AsciiOnly)) = false from rfl] at h
    cases hql : quote_loop false (true && is_ascii ch0) (ch0 :: rest) with
    | error e =>
      rw [hql] at h
      simp [Except.map] at h
    | ok r =>
      rw [hql] at h
      obtain ⟨a2, o⟩ := r
      simp only [Except.map] at h
      refine ⟨by simp, quote_loop_ok_accepts hql, ?_⟩
      have hout : '"' :: ([] ++ o ++ ['"']) = out := by
        have := congrArg (fun x => match x with
          | RunResult.done p => p.2
          | _ => []) h
        simpa using this
      have ho : o = esc_all (ch0 :: rest) := quote_loop_ok_shape hql
      rw [← hout, ho]
      simp

theorem quote_of_accepts {s : List Char} (hne : s ≠ [])
    (hacc : ∀ ch ∈ s, quote_accepts ch = true) :
    ∃ tp, quote s = .done (tp, '"' :: esc_all s ++ ['"']) := by
  cases s with
  | nil => exact absurd rfl hne
  | cons ch0 rest =>
    obtain ⟨a2, hql⟩ := quote_loop_of_accepts hacc (true && is_ascii ch0)
    refine ⟨QuotedStringType.from_is_ascii a2, ?_⟩
    rw [quote, quote_if_needed,
      show (decide (QuotedStringType.Utf8 = QuotedStringType.AsciiOnly)) = false from rfl,
      scan_reject_cons]
    dsimp only []
    have hcond : ¬ ((0 : Nat) = (ch0 :: rest).length ∧
        (closure_check (fun _ => false)).end_check () (ch0 :: rest) = true) := by
      intro hcon
      simpa using hcon.1
    rw [if_neg hcond, i_quote]
    simp only [List.take_zero, List.drop_zero]
    rw [show (decide (QuotedStringType.Utf8 = QuotedStringType.AsciiOnly)) = false from rfl, hql]
    simp [Except.map]

theorem scan_backslash {misc : QError} (idx : Nat) (rest : List Char) :
    scan_unchanged (quote_grammar misc) () idx ('\\' :: rest) =
      .ok (.validUpTo idx .Escape '\\' ()) := by
  rw [scan_unchanged]
  have : (quote_grammar misc).validate_next_char () '\\' = ((), .Escape) := by
    rw [quote_grammar]
    simp [backslash_class]
  rw [this]

theorem scan_over_plain {misc : QError} :
    ∀ (a : List Char) (idx : Nat) (suffix : List Char),
    (∀ x ∈ a, quote_accepts x = true) → (∀ x ∈ a, needs_escape x = false) →
    scan_unchanged (quote_grammar misc) () idx (a ++ suffix) =
      scan_unchanged (quote_grammar misc) () (idx + a.length) suffix := by
  intro a
  induction a with
  | nil => intro idx suffix _ _; simp
  | cons ch a' ih =>
    intro idx suffix hacc hplain
    rw [List.cons_append, scan_unchanged]
    rcases classify_plain (hacc ch (by simp)) (hplain ch (by simp)) with hcl | hcl
    · have hv : (quote_grammar misc).validate_next_char () ch = ((), .QText) := by
        rw [quote_grammar]; simp [hcl]
      rw [hv]
      dsimp only []
      rw [ih (idx + 1) suffix (fun x hx => hacc x (by simp [hx]))
        (fun x hx => hplain x (by simp [hx]))]
      congr 1
      simp only [List.length_cons]
      omega
    · have hv : (quote_grammar misc).validate_next_char () ch = ((), .SemanticWs) := by
        rw [quote_grammar]; simp [hcl]
      rw [hv]
      dsimp only []
      rw [ih (idx + 1) suffix (fun x hx => hacc x (by simp [hx]))
        (fun x hx => hplain x (by simp [hx]))]
      congr 1
      simp only [List.length_cons]
      omega

theorem items_esc_all {misc : QError} :
    ∀ (b : List Char), (∀ ch ∈ b, quote_accepts ch = true) →
    content_chars_items (quote_grammar misc) () (esc_all b) = b.map Except.ok := by
  intro b
  induction b with
  | nil => intro _; rfl
  | cons ch b' ih =>
    intro hacc
    have hrest := fun x hx => hacc x (List.mem_cons.mpr (Or.inr hx))
    rw [esc_all_cons]
    cases hne : needs_escape ch with
    | true =>
      rw [esc_char, hne, if_pos rfl]
      have hbs : ch = '\\' ∨ qtext_info_validator ch = .Quotable := by
        rcases classify_escape hne with h | h
        · left
          by_contra hch
          rw [qtext_info_validator] at h
          rw [needs_escape, Bool.and_eq_true] at hne
          simp [hne.1, show qtextInfoAt ch ≠ 0 from by
            intro h0
            have := hne.2
            rw [h0] at this
            simp at this, by simpa using hne.2, hch] at h
        · right; exact h
      rw [List.cons_append, List.cons_append, content_chars_items]
      have hv : (quote_grammar misc).validate_next_char () '\\' = ((), .Escape) := by
        rw [quote_grammar]; simp [backslash_class]
      rw [hv]
      dsimp only []
      simp [ih hrest]
    | false =>
      rw [esc_char_plain hne, List.cons_append, List.nil_append, content_chars_items]
      rcases classify_plain (hacc ch (by simp)) hne with hcl | hcl
      · have hv : (quote_grammar misc).validate_next_char () ch = ((), .QText) := by
          rw [quote_grammar]; simp [hcl]
        rw [hv]
        dsimp only []
        simp [ih hrest]
      · have hv : (quote_grammar misc).validate_next_char () ch = ((), .SemanticWs) := by
          rw [quote_grammar]; simp [hcl]
        rw [hv]
        dsimp only []
        simp [ih hrest]

theorem push_all_map_ok {E : Type} :
    ∀ (l buffer : List Char), @push_all E buffer (l.map Except.ok) = .ok (buffer ++ l) := by
  intro l
  induction l with
  | nil => intro buffer; simp [push_all]
  | cons ch l' ih =>
    intro buffer
    rw [List.map_cons, push_all, ih]
    simp

theorem esc_all_append (x y : List Char) :
    esc_all (x ++ y) = esc_all x ++ esc_all y := by
  simp [esc_all]

theorem needs_escape_dquote : needs_escape '"' = true := by decide

theorem plain_ne_dquote {ch : Char} (hne : needs_escape ch = false) : ch ≠ '"' := by
  intro hch
  rw [hch, needs_escape_dquote] at hne
  cases hne

theorem parse_loop_esc_all {misc : QError} (input : List Char) :
    ∀ (s : List Char) (pos idx : Nat), (∀ ch ∈ s, quote_accepts ch = true) →
    parse_loop (quote_grammar misc) input () false pos idx (esc_all s ++ ['"']) =
      .ok ⟨input.take (pos + (esc_all s).length + 1),
           input.drop (pos + (esc_all s).length + 1)⟩ := by
  intro s
  induction s with
  | nil =>
    intro pos idx _
    rw [esc_all_nil, List.nil_append, parse_loop]
    simp
  | cons ch s' ih =>
    intro pos idx hacc
    have hrest : ∀ x ∈ s', quote_accepts x = true := fun x hx => hacc x (by simp [hx])
    rw [esc_all_cons]
    cases hne : needs_escape ch with
    | false =>
      rw [esc_char_plain hne]
      rw [show ([ch] ++ esc_all s') ++ ['"'] = ch :: (esc_all s' ++ ['"']) from by simp]
      rw [parse_loop]
      simp only [Bool.false_eq_true, if_false]
      rw [if_neg (plain_ne_dquote hne)]
      rcases classify_plain (hacc ch (by simp)) hne with hcl | hcl
      · have hv : (quote_grammar misc).validate_next_char () ch = ((), .QText) := by
          rw [quote_grammar]; simp [hcl]
        rw [hv]
        dsimp only []
        rw [ih (pos + 1) (idx + ch.utf8Size) hrest]
        have hl : pos + 1 + (esc_all s').length + 1 =
            pos + ([ch] ++ esc_all s').length + 1 := by
          simp only [List.length_append, List.length_singleton]
          omega
        rw [hl]
      · have hv : (quote_grammar misc).validate_next_char () ch = ((), .SemanticWs) := by
          rw [quote_grammar]; simp [hcl]
        rw [hv]
        dsimp only []
        rw [ih (pos + 1) (idx + ch.utf8Size) hrest]
        have hl : pos + 1 + (esc_all s').length + 1 =
            pos + ([ch] ++ esc_all s').length + 1 := by
          simp only [List.length_append, List.length_singleton]
          omega
        rw [hl]
    | true =>
      rw [esc_char, hne, if_pos rfl]
      rw [show (['\\', ch] ++ esc_all s') ++ ['"'] = '\\' :: ch :: (esc_all s' ++ ['"'])
        from by simp]
      rw [parse_loop]
      simp only [Bool.false_eq_true, if_false]
      rw [if_neg (show ('\\' : Char) ≠ '"' from by decide)]
      have hv : (quote_grammar misc).validate_next_char () '\\' = ((), .Escape) := by
        rw [quote_grammar]; simp [backslash_class]
      rw [hv]
      dsimp only []
      rw [parse_loop]
      simp only [if_true]
      rw [quote_grammar_is_quotable hne]
      dsimp only []
      rw [ih (pos + 1 + 1) (idx + Char.utf8Size '\\' + ch.utf8Size) hrest]
      have hl : pos + 1 + 1 + (esc_all s').length + 1 =
          pos + (['\\', ch] ++ esc_all s').length + 1 := by
        simp only [List.length_append, List.length_cons, List.length_nil,
          List.length_singleton]
        omega
      rw [hl]

theorem to_content_esc_all {misc : QError} {s : List Char}
    (hacc : ∀ ch ∈ s, quote_accepts ch = true) :
    Option.map CowStr.text (to_content (quote_grammar misc) ('"' :: esc_all s ++ ['"'])).value? =
      some s := by
  rw [to_content, strip_quotes_wrap]
  dsimp only []
  rw [show (quote_grammar misc).new_quoted_validator = () from rfl]
  cases hfe : first_escaped s with
  | none =>
    have hplain := first_escaped_none hfe
    have hesc : esc_all s = s := esc_all_of_plain hplain
    have hscan : scan_unchanged (quote_grammar misc) () 0 (esc_all s) =
        .ok (.validUnchanged ()) := by
      rw [hesc]
      have hsp := @scan_over_plain misc s 0 [] hacc hplain
      rw [List.append_nil] at hsp
      rw [hsp]
      rfl
    rw [hscan]
    dsimp only []
    rw [hesc]
    rfl
  | some trip =>
    obtain ⟨a, c, b⟩ := trip
    obtain ⟨hs, hpa, hec⟩ := first_escaped_some hfe
    have hacca : ∀ x ∈ a, quote_accepts x = true := fun x hx =>
      hacc x (by rw [hs]; simp [hx])
    have haccb : ∀ x ∈ b, quote_accepts x = true := fun x hx =>
      hacc x (by rw [hs]; simp [hx])
    have hdecomp : esc_all s = a ++ ('\\' :: c :: esc_all b) := by
      rw [hs, esc_all_append, esc_all_of_plain hpa, esc_all_cons, esc_char, hec, if_pos rfl]
      simp
    rw [hdecomp]
    have hscan : scan_unchanged (quote_grammar misc) () 0 (a ++ ('\\' :: c :: esc_all b)) =
        .ok (.validUpTo a.length .Escape '\\' ()) := by
      rw [scan_over_plain a 0 _ hacca hpa, scan_backslash]
      simp
    rw [hscan]
    dsimp only []
    rw [List.take_left a, List.drop_left a]
    dsimp only [List.drop]
    rw [items_esc_all b haccb]
    dsimp only [List.head?]
    rw [push_all_map_ok]
    dsimp only [RunResult.value?, Option.map, CowStr.text]
    rw [hs]
    simp

theorem parse_loop_of_exhausts {σ E : Type} (sp : QSpec σ E) (input : List Char) :
    ∀ (l : List Char) (q : σ) (lastEsc : Bool) (pos idx : Nat),
    loop_exhausts sp q lastEsc l = true →
    parse_loop sp input q lastEsc pos idx l =
      .error (byteLen input, sp.quoted_string_missing_quotes) := by
  intro l
  induction l with
  | nil => intro q lastEsc pos idx _; rfl
  | cons ch rest ih =>
    intro q lastEsc pos idx h
    rw [loop_exhausts] at h
    rw [parse_loop]
    cases lastEsc with
    | true =>
      simp only [if_true] at h ⊢
      rcases hv : sp.validate_is_quotable q ch with ⟨q', r⟩
      rw [hv] at h
      cases r with
      | error e => simp at h
      | ok u =>
        dsimp only [] at h ⊢
        exact ih q' false (pos + 1) (idx + ch.utf8Size) h
    | false =>
      simp only [Bool.false_eq_true, if_false] at h ⊢
      by_cases hch : ch = '"'
      · rw [if_pos hch] at h
        cases h
      · rw [if_neg hch] at h ⊢
        rcases hv : sp.validate_next_char q ch with ⟨q', r⟩
        rw [hv] at h
        cases r with
        | QText => exact ih q' false (pos + 1) (idx + ch.utf8Size) h
        | SemanticWs => exact ih q' false (pos + 1) (idx + ch.utf8Size) h
        | NotSemanticWs => exact ih q' false (pos + 1) (idx + ch.utf8Size) h
        | Escape => exact ih q' true (pos + 1) (idx + ch.utf8Size) h
        | Quotable => simp at h
        | Invalid err => simp at h

theorem iter_eq_false_of_error {E : Type} (cmp : Char → Char → Bool) :
    ∀ (l r : List (Except E Char)),
    ((∃ e, Except.error e ∈ l) ∨ (∃ e, Except.error e ∈ r)) →
    iter_eq cmp l r = false := by
  intro l
  induction l with
  | nil =>
    intro r h
    cases r with
    | nil =>
      exfalso
      rcases h with ⟨e, he⟩ | ⟨e, he⟩ <;> simp at he
    | cons y r' => cases y <;> rfl
  | cons x l' ih =>
    intro r h
    cases x with
    | error e =>
      cases r with
      | nil => rfl
      | cons y r' => cases y <;> rfl
    | ok xa =>
      cases r with
      | nil => rfl
      | cons y r' =>
        cases y with
        | error e2 => rfl
        | ok ya =>
          show (if cmp xa ya then iter_eq cmp l' r' else false) = false
          by_cases hc : cmp xa ya
          · rw [if_pos hc]
            apply ih
            rcases h with ⟨e, he⟩ | ⟨e, he⟩
            · left
              refine ⟨e, ?_⟩
              rcases List.mem_cons.mp he with he | he
              · cases he
              · exact he
            · right
              refine ⟨e, ?_⟩
              rcases List.mem_cons.mp he with he | he
              · cases he
              · exact he
          · rw [if_neg hc]

theorem scan_ahead_ok_check {σ : Type} (next : σ → Char → σ × Bool) (ao : Bool) :
    ∀ (l : List Char) (s : σ) (ascii : Bool) (s' : σ) (a' : Bool) (off : Nat),
    scan_ahead next ao s ascii l = .ok (s', a', off) →
    off ≤ l.length ∧ (off = l.length ↔ (check_all next s l).2 = true) ∧
      ((check_all next s l).2 = true → s' = (check_all next s l).1) := by
  intro l
  induction l with
  | nil =>
    intro s ascii s' a' off h
    rw [scan_ahead] at h
    obtain ⟨hs, ha, hoff⟩ := Prod.mk.injEq .. ▸ Except.ok.inj h
    refine ⟨by omega, by simp [check_all], fun _ => ?_⟩
    rw [check_all, ← hs]
  | cons ch rest ih =>
    intro s ascii s' a' off h
    rw [scan_ahead] at h
    rcases hnext : next s ch with ⟨s1, keep⟩
    rw [check_all, hnext]
    dsimp only []
    by_cases hna : (ascii && !is_ascii ch) = true
    · rw [if_pos hna] at h
      cases hao : ao with
      | true => rw [hao] at h; cases h
      | false =>
        rw [hao] at h
        simp only [Bool.false_eq_true, if_false] at h
        rw [hnext] at h
        dsimp only [] at h
        cases hkeep : keep with
        | true =>
          rw [hkeep, if_pos rfl] at h
          cases hrec : scan_ahead next false s1 false rest with
          | error e => rw [hrec] at h; cases h
          | ok r0 =>
            rw [hrec] at h
            simp only [Except.map, Except.ok.injEq] at h
            obtain ⟨r1, r2, r3⟩ := r0
            obtain ⟨hs', ha', hoff⟩ := Prod.mk.injEq .. ▸ h.symm
            obtain ⟨hle, hiff, hst⟩ := ih s1 false r1 r2 r3 (by rw [hao]; exact hrec)
            refine ⟨by simp only [List.length_cons]; omega, ?_, ?_⟩
            · rw [if_pos rfl]
              constructor
              · intro hl
                exact hiff.mp (by simp only [List.length_cons] at hl; omega)
              · intro hck
                have := hiff.mpr hck
                simp only [List.length_cons]
                omega
            · intro hck
              rw [if_pos rfl] at hck ⊢
              rw [hs']
              exact hst hck
        | false =>
          rw [hkeep] at h
          simp only [Bool.false_eq_true, if_false] at h
          obtain ⟨hs', ha', hoff⟩ := Prod.mk.injEq .. ▸ Except.ok.inj h
          simp only [Bool.false_eq_true, if_false]
          refine ⟨by omega, ?_, by intro hck; cases hck⟩
          constructor
          · intro hl
            simp only [List.length_cons] at hl
            omega
          · intro hck
            cases hck
    · rw [if_neg hna, hnext] at h
      dsimp only [] at h
      cases hkeep : keep with
      | true =>
        rw [hkeep, if_pos rfl] at h
        cases hrec : scan_ahead next ao s1 ascii rest with
        | error e => rw [hrec] at h; cases h
        | ok r0 =>
          rw [hrec] at h
          simp only [Except.map, Except.ok.injEq] at h
          obtain ⟨r1, r2, r3⟩ := r0
          obtain ⟨hs', ha', hoff⟩ := Prod.mk.injEq .. ▸ h.symm
          obtain ⟨hle, hiff, hst⟩ := ih s1 ascii r1 r2 r3 hrec
          refine ⟨by simp only [List.length_cons]; omega, ?_, ?_⟩
          · rw [if_pos rfl]
            constructor
            · intro hl
              exact hiff.mp (by simp only [List.length_cons] at hl; omega)
            · intro hck
              have := hiff.mpr hck
              simp only [List.length_cons]
              omega
          · intro hck
            rw [if_pos rfl] at hck ⊢
            rw [hs']
            exact hst hck
      | false =>
        rw [hkeep] at h
        simp only [Bool.false_eq_true, if_false] at h
        obtain ⟨hs', ha', hoff⟩ := Prod.mk.injEq .. ▸ Except.ok.inj h
        simp only [Bool.false_eq_true, if_false]
        refine ⟨by omega, ?_, by intro hck; cases hck⟩
        constructor
        · intro hl
          simp only [List.length_cons] at hl
          omega
        · intro hck
          cases hck

theorem scan_ahead_ao_take_ascii {σ : Type} (next : σ → Char → σ × Bool) :
    ∀ (l : List Char) (s : σ) (s' : σ) (a' : Bool) (off : Nat),
    scan_ahead next true s true l = .ok (s', a', off) →
    ∀ ch ∈ l.take off, is_ascii ch = true := by
  intro l
  induction l with
  | nil => intro s s' a' off h ch hch; simp at hch
  | cons ch0 rest ih =>
    intro s s' a' off h ch hch
    rw [scan_ahead] at h
    cases ha : is_ascii ch0 with
    | false =>
      rw [show (true && !is_ascii ch0) = true from by rw [ha]; rfl, if_pos rfl,
        if_pos rfl] at h
      cases h
    | true =>
      rw [show (true && !is_ascii ch0) = false from by rw [ha]; rfl] at h
      simp only [Bool.false_eq_true, if_false] at h
      rcases hnext : next s ch0 with ⟨s1, keep⟩
      rw [hnext] at h
      dsimp only [] at h
      cases hkeep : keep with
      | false =>
        rw [hkeep] at h
        simp only [Bool.false_eq_true, if_false] at h
        obtain ⟨hs', ha', hoff⟩ := Prod.mk.injEq .. ▸ Except.ok.inj h
        simp at hch
      | true =>
        rw [hkeep, if_pos rfl] at h
        cases hrec : scan_ahead next true s1 true rest with
        | error e => rw [hrec] at h; cases h
        | ok r0 =>
          rw [hrec] at h
          simp only [Except.map, Except.ok.injEq] at h
          obtain ⟨r1, r2, r3⟩ := r0
          have hoff : off = r3 + 1 := by
            have := congrArg (fun p => p.2.2) h
            simpa using this.symm
          rw [hoff, List.take_succ_cons] at hch
          rcases List.mem_cons.mp hch with hx | hx
          · subst hx; exact ha
          · exact ih s1 r1 r2 r3 hrec ch hx

theorem scan_ahead_ao_error {σ : Type} (next : σ → Char → σ × Bool) :
    ∀ (l : List Char) (s : σ), (∃ ch ∈ l, is_ascii ch = false) →
    (check_all next s l).2 = true →
    scan_ahead next true s true l = .error .NonUsAsciiInput := by
  intro l
  induction l with
  | nil => intro s h _; simp at h
  | cons ch0 rest ih =>
    intro s h hck
    rw [scan_ahead]
    cases ha : is_ascii ch0 with
    | false => simp
    | true =>
      simp only [Bool.not_true, Bool.and_false, Bool.false_eq_true, if_false]
      rcases hnext : next s ch0 with ⟨s1, keep⟩
      rw [check_all, hnext] at hck
      dsimp only [] at hck
      cases hkeep : keep with
      | false =>
        rw [hkeep] at hck
        simp only [Bool.false_eq_true, if_false] at hck
      | true =>
        rw [hkeep] at hck
        simp only [if_true] at hck
        dsimp only []
        rw [if_pos rfl]
        have hrest : ∃ ch ∈ rest, is_ascii ch = false := by
          obtain ⟨ch, hmem, hna⟩ := h
          rcases List.mem_cons.mp hmem with hx | hx
          · subst hx; rw [ha] at hna; cases hna
          · exact ⟨ch, hx, hna⟩
        rw [ih s1 hrest hck]
        rfl

theorem quote_loop_ao_error :
    ∀ (l : List Char) (ascii : Bool), (∃ ch ∈ l, is_ascii ch = false) →
    ∃ e, quote_loop true ascii l = .error e := by
  intro l
  induction l with
  | nil => intro ascii h; simp at h
  | cons ch0 rest ih =>
    intro ascii h
    rw [quote_loop]
    cases ha : is_ascii ch0 with
    | false =>
      exact ⟨.NonUsAsciiInput, by simp⟩
    | true =>
      simp only [if_true]
      have hrest : ∃ ch ∈ rest, is_ascii ch = false := by
        obtain ⟨ch, hmem, hna⟩ := h
        rcases List.mem_cons.mp hmem with hx | hx
        · subst hx; rw [ha] at hna; cases hna
        · exact ⟨ch, hx, hna⟩
      by_cases h0 : qtextInfoAt ch0 = 0
      · rw [if_pos h0]
        exact ⟨.UnquotableCharacter ch0, rfl⟩
      · rw [if_neg h0]
        obtain ⟨e, hrec⟩ := ih ascii hrest
        rw [hrec]
        exact ⟨e, rfl⟩

/-! ### Claim theorems -/

/-- C1: the spec claims `to_content` returns the grammar's missing-quotes
error (and does not panic) on every input missing an opening or closing
`'"'`, including every input shorter than two characters.  The code
violates this on the single character `'"'`: both byte tests of
`strip_quotes` pass (first byte = last byte = `b'"'`), and the slice
`&quoted_string[1..len-1]` is `[1..0]`, which panics — despite the
`SLICE_SAFE` comment.  The empty input, by contrast, behaves as claimed.
This theorem evaluates the embedded code at the failing input, for every
grammar. -/
theorem C1_to_content_single_dquote_panics {σ E : Type} (sp : QSpec σ E) :
    to_content sp ['"'] = .panicked ∧
    strip_quotes ['"'] = .panicked ∧
    to_content sp [] = .failed sp.quoted_string_missing_quotes := ⟨rfl, rfl, rfl⟩

/-- C4: `parse` errors at byte offset 0 when the first byte of the input
is not `'"'` (in particular on the empty input), and when the input
starts with `'"'` but the character loop exhausts the input without an
early return — no unescaped closing `'"'`, no validation error — it
fails with the missing-quotes error paired with offset `input.len()`
(the UTF-8 byte length). -/
theorem C4_parse_missing_quotes {σ E : Type} (sp : QSpec σ E) (input : List Char) :
    (input.head? ≠ some '"' → parse sp input = .error (0, sp.quoted_string_missing_quotes)) ∧
    (input.head? = some '"' →
      loop_exhausts sp sp.new_quoted_validator false input.tail = true →
      parse sp input = .error (byteLen input, sp.quoted_string_missing_quotes)) := by
  constructor
  · intro h
    rw [parse, if_neg h]
  · intro hh hex
    rw [parse, if_pos hh]
    exact parse_loop_of_exhausts sp input input.tail sp.new_quoted_validator false 1 1 hex

/-- Witness for C4: the empty input errors at offset 0, and an unclosed
quoted string errors at its byte length with the missing-quotes error. -/
theorem C4_witness :
    parse TestSpec ([] : List Char) = .error (0, TestError.QuotesMissing) ∧
    parse TestSpec ['"', 'a', 'b', 'c'] = .error (4, TestError.QuotesMissing) :=
  ⟨(C4_parse_missing_quotes TestSpec []).1 (by decide),
   (C4_parse_missing_quotes TestSpec ['"', 'a', 'b', 'c']).2 rfl rfl⟩

/-- C7: advancing the scan automaton after it has reached `End` or
`Failed` always yields the "advanced after completion" respectively
"advanced after failure" error of error.rs — never a panic, never a
silent accept — for every grammar plug-in and every character. -/
theorem C7_automaton_absorbing {S : Type} (g : AutomatonGrammar S) (ch : Char) :
    automaton_advance g .Ended ch = .error .QuotedStringAlreadyEnded ∧
    automaton_advance g .Failed ch = .error .AdvancedFailedAutomaton := ⟨rfl, rfl⟩

/-- C8: `quote` applied to the empty string panics: `scan_ahead` finds
no failing character, the closure-based check's default end check
returns true, so `quote_if_needed` returns the empty input borrowed and
`quote`'s match reaches its `unreachable!` branch — `quote` is not total. -/
theorem C8_quote_empty_panics :
    quote [] = .panicked ∧
    quote_if_needed (closure_check (fun _ => false)) QuotedStringType.Utf8 [] =
      .ok (.AsciiOnly, .borrowed []) := ⟨rfl, rfl⟩

/-- C2 counterexample: the empty string satisfies the claim's hypothesis
vacuously (every of its zero characters is accepted), yet `quote`
panics on it, so no quoted string is produced and `to_content` of the
result cannot succeed. -/
theorem C2_counterexample :
    (∀ ch ∈ ([] : List Char), quote_accepts ch = true) ∧
    quote ([] : List Char) = .panicked ∧
    ¬ ∃ tp out, quote ([] : List Char) = .done (tp, out) := by
  refine ⟨by simp, rfl, ?_⟩
  rintro ⟨tp, out, h⟩
  rw [show quote ([] : List Char) = .panicked from rfl] at h
  cases h

/-- C2 (amended): for every nonempty string s whose every character the
quoting grammar accepts, `quote s` succeeds and `to_content` — run with
the grammar matching `quote`'s own classification, any choice of the
unreachable error values — yields content equal to s. -/
theorem C2_roundtrip {misc : QError} {s : List Char} (hne : s ≠ [])
    (hacc : ∀ ch ∈ s, quote_accepts ch = true) :
    ∃ tp out, quote s = .done (tp, out) ∧
      Option.map CowStr.text (to_content (quote_grammar misc) out).value? = some s := by
  obtain ⟨tp, hq⟩ := quote_of_accepts hne hacc
  exact ⟨tp, _, hq, to_content_esc_all hacc⟩

/-- Witness for C2: round trip through an escaped backslash. -/
theorem C2_witness :
    ∃ tp out, quote ['a', '\\', 'b'] = .done (tp, out) ∧
      Option.map CowStr.text
        (to_content (quote_grammar QError.NonUsAsciiInput) out).value? =
          some ['a', '\\', 'b'] :=
  C2_roundtrip (by decide) (by decide)

/-- C5: for every string s for which `quote s` succeeds, `parse` applied
to the resulting quoted string (under the grammar matching `quote`'s
classification) succeeds, its parsed quoted_string is the entire output
of `quote s`, and its tail is empty. -/
theorem C5_parse_of_quote {misc : QError} {s : List Char} {tp : QuotedStringType}
    {out : List Char} (h : quote s = .done (tp, out)) :
    parse (quote_grammar misc) out = .ok ⟨out, []⟩ := by
  obtain ⟨hne, hacc, hout⟩ := quote_done_shape h
  subst hout
  rw [parse, if_pos (show ('"' :: esc_all s ++ ['"']).head? = some '"' from rfl)]
  rw [show ((quote_grammar misc).new_quoted_validator : Unit) = () from rfl]
  rw [show ('"' :: esc_all s ++ ['"']).tail = esc_all s ++ ['"'] from rfl]
  rw [parse_loop_esc_all ('"' :: esc_all s ++ ['"']) s 1 1 hacc]
  have hlen : ('"' :: esc_all s ++ ['"']).length = 1 + (esc_all s).length + 1 := by
    simp only [List.length_cons, List.length_append, List.length_nil, List.length_singleton]
    omega
  rw [List.take_of_length_le (le_of_eq hlen), List.drop_eq_nil_of_le (le_of_eq hlen)]

/-- Witness for C5: a concrete quoted string with escapes parses back
to itself with an empty tail. -/
theorem C5_witness :
    parse (quote_grammar QError.NonUsAsciiInput) ['"', 'a', '\\', '\\', 'b', '"'] =
      .ok ⟨['"', 'a', '\\', '\\', 'b', '"'], []⟩ :=
  @C5_parse_of_quote QError.NonUsAsciiInput ['a', '\\', 'b']
    QuotedStringType.AsciiOnly ['"', 'a', '\\', '\\', 'b', '"'] rfl

/-- C6: for every quoted string whose interior ends with a `'\\'` that
escapes nothing (the scan splits at that trailing escape), `to_content`
applies the grammar's trailing-escape policy: a policy error is returned
to the caller, and a policy Ok decodes the trailing `'\\'` as a literal
backslash in the content.  The `ContentChars` iterator at that position
yields the same policy outcome mapped to a literal backslash. -/
theorem C6_trailing_escape {σ E : Type} (sp : QSpec σ E) (pre : List Char) (q' : σ)
    (hscan : scan_unchanged sp sp.new_quoted_validator 0 (pre ++ ['\\']) =
      .ok (.validUpTo pre.length .Escape '\\' q')) :
    (to_content sp ('"' :: (pre ++ ['\\']) ++ ['"']) =
      match sp.error_for_tailing_escape with
      | .error e => .failed e
      | .ok _ => .done (.owned (pre ++ ['\\']))) ∧
    (∀ q q2 : σ, sp.validate_next_char q '\\' = (q2, .Escape) →
      content_chars_items sp q ['\\'] = [sp.error_for_tailing_escape.map (fun _ => '\\')]) := by
  constructor
  · rw [to_content, strip_quotes_wrap]
    dsimp only []
    rw [hscan]
    dsimp only []
    rw [List.take_left pre, List.drop_left pre]
    cases hpol : sp.error_for_tailing_escape with
    | error e => rfl
    | ok u => rfl
  · intro q q2 hv
    rw [content_chars_items, hv]

/-- Witness for C6: under `TestSpec` (rejecting policy) the trailing
escape surfaces the policy error; under `TestSpecLax` (accepting policy)
it decodes as a literal backslash; the iterator behaves the same way. -/
theorem C6_witness :
    to_content TestSpec ['"', 'a', 'b', '\\', '"'] = .failed TestError.TailingEscape ∧
    to_content TestSpecLax ['"', 'a', 'b', '\\', '"'] = .done (.owned ['a', 'b', '\\']) ∧
    content_chars_items TestSpec () ['\\'] = [.error TestError.TailingEscape] ∧
    content_chars_items TestSpecLax () ['\\'] = [.ok '\\'] :=
  ⟨(C6_trailing_escape TestSpec ['a', 'b'] () rfl).1,
   (C6_trailing_escape TestSpecLax ['a', 'b'] () rfl).1,
   (C6_trailing_escape TestSpec ['a', 'b'] () rfl).2 () () rfl,
   (C6_trailing_escape TestSpecLax ['a', 'b'] () rfl).2 () () rfl⟩

/-- C3 counterexample: with an all-accepting check (whose default end
check passes) but `AsciiOnly` type and a non-ASCII input, the claim's
"check accepts everything, so the borrowed input is returned" direction
fails — `quote_if_needed` returns the `NonUsAsciiInput` error instead of
the borrowed input. -/
theorem C3_counterexample :
    (check_all (closure_check (fun _ => true)).next_char
        (closure_check (fun _ => true)).init ['→']).2 = true ∧
    (closure_check (fun _ => true)).end_check
      (check_all (closure_check (fun _ => true)).next_char
        (closure_check (fun _ => true)).init ['→']).1 ['→'] = true ∧
    quote_if_needed (closure_check (fun _ => true)) .AsciiOnly ['→'] =
      .error .NonUsAsciiInput := ⟨rfl, rfl, rfl⟩

/-- C3 (amended): whenever `quote_if_needed` succeeds, it returns the
borrowed, unmodified input if and only if the valid-without-quoting
check accepts every character and the final end check passes; in every
other successful case it returns an owned string of the quoted shape —
an opening `'"'`, the verbatim prefix up to the first rejected
character, the escaped remainder, and a closing `'"'`.  (As stated the
claim also fails when `quote_if_needed` errors: an accepting check with
`AsciiOnly` type and non-ASCII input yields an error, not the borrowed
input.) -/
theorem C3_minimality {σ : Type} (chk : QCheck σ) (tp : QuotedStringType)
    (input : List Char) (tp' : QuotedStringType) (r : CowStr)
    (h : quote_if_needed chk tp input = .ok (tp', r)) :
    (r = .borrowed input ↔
      ((check_all chk.next_char chk.init input).2 = true ∧
        chk.end_check (check_all chk.next_char chk.init input).1 input = true)) ∧
    (∀ out, r = .owned out → ∃ k, k ≤ input.length ∧
      out = '"' :: (input.take k ++ esc_all (input.drop k)) ++ ['"']) := by
  rw [quote_if_needed] at h
  cases hscan : scan_ahead chk.next_char (decide (tp = QuotedStringType.AsciiOnly))
      chk.init true input with
  | error e => rw [hscan] at h; cases h
  | ok r0 =>
    rw [hscan] at h
    obtain ⟨s0, a0, off⟩ := r0
    dsimp only [] at h
    obtain ⟨hle, hiff, hst⟩ := scan_ahead_ok_check chk.next_char _ input chk.init true
      s0 a0 off hscan
    by_cases hcond : off = input.length ∧ chk.end_check s0 input = true
    · rw [if_pos hcond] at h
      have hr : r = .borrowed input := by
        have := congrArg (fun x => match x with
          | Except.ok p => p.2
          | _ => CowStr.owned []) h
        simpa using this.symm
      subst hr
      constructor
      · constructor
        · intro _
          refine ⟨hiff.mp hcond.1, ?_⟩
          rw [← hst (hiff.mp hcond.1)]
          exact hcond.2
        · intro _
          rfl
      · intro out hout
        cases hout
    · rw [if_neg hcond] at h
      rw [i_quote] at h
      cases hql : quote_loop (decide (tp = QuotedStringType.AsciiOnly)) a0
          (input.drop off) with
      | error e =>
        rw [hql] at h
        simp [Except.map] at h
      | ok r1 =>
        rw [hql] at h
        obtain ⟨a2, o⟩ := r1
        simp only [Except.map] at h
        have hr : r = .owned ('"' :: input.take off ++ o ++ ['"']) := by
          have := congrArg (fun x => match x with
            | Except.ok p => p.2
            | _ => CowStr.borrowed []) h
          simpa using this.symm
        constructor
        · constructor
          · intro hb
            rw [hr] at hb
            cases hb
          · intro ⟨hck, hend⟩
            exfalso
            exact hcond ⟨hiff.mpr hck, by rw [hst hck]; exact hend⟩
        · intro out hout
          rw [hr] at hout
          refine ⟨off, hle, ?_⟩
          have ho : o = esc_all (input.drop off) := quote_loop_ok_shape hql
          have := CowStr.owned.inj hout
          rw [← this, ho]
          simp

/-- Witness for C3: a plain input with an all-accepting check is
returned borrowed, and with a rejecting check the quoted owned shape is
produced. -/
theorem C3_witness :
    ((CowStr.borrowed ['a', 'b'] = CowStr.borrowed ['a', 'b']) ↔
      ((check_all (closure_check (fun _ => true)).next_char
          (closure_check (fun _ => true)).init ['a', 'b']).2 = true ∧
        (closure_check (fun _ => true)).end_check
          (check_all (closure_check (fun _ => true)).next_char
            (closure_check (fun _ => true)).init ['a', 'b']).1 ['a', 'b'] = true)) ∧
    (∀ out, CowStr.borrowed ['a', 'b'] = CowStr.owned out →
      ∃ k, k ≤ (['a', 'b'] : List Char).length ∧
        out = '"' :: ((['a', 'b'] : List Char).take k ++
          esc_all ((['a', 'b'] : List Char).drop k)) ++ ['"']) :=
  C3_minimality (closure_check (fun _ => true)) .Utf8 ['a', 'b'] .AsciiOnly
    (.borrowed ['a', 'b']) rfl

/-- C9 counterexample: with a rejecting check, the quoting pass rescans
from the rejection point and can hit an unquotable ASCII character (NUL)
before the non-ASCII one — the error is `UnquotableCharacter`, not
`NonUsAsciiInput`, even though the input contains a non-ASCII
character. -/
theorem C9_counterexample :
    (∃ ch ∈ ['\u0000', '→'], is_ascii ch = false) ∧
    quote_if_needed (closure_check (fun _ => false)) .AsciiOnly ['\u0000', '→'] =
      .error (.UnquotableCharacter '\u0000') ∧
    quote_if_needed (closure_check (fun _ => false)) .AsciiOnly ['\u0000', '→'] ≠
      .error .NonUsAsciiInput := by
  refine ⟨by decide, rfl, ?_⟩
  intro h
  rw [show quote_if_needed (closure_check (fun _ => false)) .AsciiOnly ['\u0000', '→'] =
      .error (.UnquotableCharacter '\u0000') from rfl] at h
  cases Except.error.inj h

/-- C9 (amended): for every input containing a non-ASCII character,
`quote_if_needed` with `AsciiOnly` always fails — the ASCII test in
`scan_ahead` runs before the per-character validity check — and when the
valid-without-quoting check accepts every character of the input the
error is exactly `NonUsAsciiInput`.  (With a rejecting check the second
pass can instead surface `UnquotableCharacter` for an unquotable ASCII
character preceding the first non-ASCII one.) -/
theorem C9_ascii_only_nonascii {σ : Type} (chk : QCheck σ) (input : List Char)
    (hna : ∃ ch ∈ input, is_ascii ch = false) :
    (∃ e, quote_if_needed chk .AsciiOnly input = .error e) ∧
    ((check_all chk.next_char chk.init input).2 = true →
      quote_if_needed chk .AsciiOnly input = .error .NonUsAsciiInput) := by
  constructor
  · rw [quote_if_needed]
    cases hscan : scan_ahead chk.next_char
        (decide (QuotedStringType.AsciiOnly = QuotedStringType.AsciiOnly))
        chk.init true input with
    | error e => exact ⟨e, rfl⟩
    | ok r0 =>
      obtain ⟨s0, a0, off⟩ := r0
      dsimp only []
      obtain ⟨hle, hiff, hst⟩ := scan_ahead_ok_check chk.next_char _ input chk.init true
        s0 a0 off hscan
      have hscan' : scan_ahead chk.next_char true chk.init true input = .ok (s0, a0, off) := by
        rw [← hscan]
        rfl
      have htake := scan_ahead_ao_take_ascii chk.next_char input chk.init s0 a0 off hscan'
      have hdrop : ∃ ch ∈ input.drop off, is_ascii ch = false := by
        obtain ⟨ch, hmem, hcna⟩ := hna
        rw [show input = input.take off ++ input.drop off from (List.take_append_drop off
          input).symm] at hmem
        rcases List.mem_append.mp hmem with hx | hx
        · rw [htake ch hx] at hcna
          cases hcna
        · exact ⟨ch, hx, hcna⟩
      have hoffne : off ≠ input.length := by
        intro hoff
        obtain ⟨ch, hmem, hcna⟩ := hdrop
        rw [hoff, List.drop_length] at hmem
        simp at hmem
      rw [if_neg (by intro hcon; exact hoffne hcon.1)]
      rw [i_quote]
      obtain ⟨e, hql⟩ := quote_loop_ao_error (input.drop off) a0 hdrop
      rw [show (decide (QuotedStringType.AsciiOnly = QuotedStringType.AsciiOnly)) = true
        from rfl, hql]
      exact ⟨e, rfl⟩
  · intro hck
    rw [quote_if_needed,
      show (decide (QuotedStringType.AsciiOnly = QuotedStringType.AsciiOnly)) = true from rfl,
      scan_ahead_ao_error chk.next_char input chk.init hna hck]

/-- Witness for C9: a lone non-ASCII character with an all-accepting
check yields exactly the `NonUsAsciiInput` error. -/
theorem C9_witness :
    quote_if_needed (closure_check (fun _ => true)) .AsciiOnly ['→'] =
      .error .NonUsAsciiInput :=
  (C9_ascii_only_nonascii (closure_check (fun _ => true)) ['→'] (by decide)).2 rfl

/-- C10: every equality comparison built on `iter_eq` — `ContentChars`
against a str, against another `ContentChars`, case-sensitive or ASCII
case-insensitive — returns false as soon as either side yields a decode
error; in particular a `ContentChars` whose item stream contains an
error is never equal to itself, or to any string, despite `Eq` being
implemented for the type. -/
theorem C10_iter_eq_error {σ E : Type} [DecidableEq E] (sp : QSpec σ E)
    (cmp : Char → Char → Bool) (l r : List (Except E Char))
    (h : (∃ e, Except.error e ∈ l) ∨ (∃ e, Except.error e ∈ r)) :
    iter_eq cmp l r = false ∧
    (∀ cc : ContentChars σ, (∃ e, Except.error e ∈ cc.items sp) →
      content_chars_eq sp cc cc = false ∧
      content_chars_eq_icase sp cc cc = false ∧
      ∀ other : List Char, content_chars_eq_str sp cc other = false ∧
        content_chars_eq_str_icase sp cc other = false) := by
  refine ⟨iter_eq_false_of_error cmp l r h, fun cc hcc => ?_⟩
  exact ⟨iter_eq_false_of_error _ _ _ (Or.inl hcc),
    iter_eq_false_of_error _ _ _ (Or.inl hcc),
    fun other => ⟨iter_eq_false_of_error _ _ _ (Or.inl hcc),
      iter_eq_false_of_error _ _ _ (Or.inl hcc)⟩⟩

/-- Witness for C10: a `ContentChars` over the invalid character 0x01
is not equal to itself. -/
theorem C10_witness :
    content_chars_eq TestSpec ⟨(), ['\u0001']⟩ ⟨(), ['\u0001']⟩ = false := by
  have hmem : ∃ e, Except.error e ∈
      (ContentChars.mk () ['\u0001']).items TestSpec :=
    ⟨TestError.Unquoteable, List.mem_singleton.mpr rfl⟩
  exact ((C10_iter_eq_error TestSpec (fun a b => a = b)
    ((ContentChars.mk () ['\u0001']).items TestSpec) [] (Or.inl hmem)).2
    ⟨(), ['\u0001']⟩ hmem).1
